import Mathlib

/-!
Verification of the small in-memory graph ADTs of this repository:
the adjacency-list graph (`graph_adjlist.rs`) and the adjacency-matrix
graph (`graph_matrix.rs`).

The Rust `HashMap<T, Vertex<T>>` is modelled as an association list
`List (T × Vertex T)`; a real `HashMap` keeps its keys unique, which in
the model shows up as `Nodup` hypotheses on the key list where the
behaviour depends on it.  The `u32` counters `vertnums`/`edgenums` are
modelled as `Nat` (with `Nat` truncated subtraction where the code uses
`-=`); `i32` edge weights are modelled as `Int`.  A Rust panic is
modelled as `Except.error`.
-/

namespace AdjList

/-- Adjacency-list vertex record (`struct Vertex<T>`): its own key and the
ordered list of `(neighbor key, weight)` pairs (`Vec<(T, i32)>`). -/
structure Vertex (T : Type) where
  key : T
  neighbors : List (T × Int)
deriving DecidableEq

variable {T : Type} [DecidableEq T]

/-- `Vertex::new`: fresh record with an empty neighbor list. -/
def Vertex.new (key : T) : Vertex T :=
  ⟨key, []⟩

/-- `Vertex::adjacent_key`: scan the neighbor list for an entry whose key
equals `key`. -/
def Vertex.adjacent_key (v : Vertex T) (key : T) : Bool :=
  v.neighbors.any fun p => decide (p.1 = key)

/-- `Vertex::add_neighbor`: push `(nbr, wt)` at the end of the neighbor list. -/
def Vertex.add_neighbor (v : Vertex T) (nbr : T) (wt : Int) : Vertex T :=
  { v with neighbors := v.neighbors ++ [(nbr, wt)] }

/-- `Vertex::get_neighbors`: the neighbor keys, in list order. -/
def Vertex.get_neighbors (v : Vertex T) : List T :=
  v.neighbors.map Prod.fst

/-- `Vertex::get_nbr_weight`: the weight of the first matching neighbor
entry; the function falls through to `&0` when no entry matches. -/
def Vertex.get_nbr_weight (v : Vertex T) (key : T) : Int :=
  match v.neighbors.find? (fun p => decide (p.1 = key)) with
  | some p => p.2
  | none => 0

/-- `HashMap::get` on the association-list model: value of the first entry
with the given key. -/
def hmGet : List (T × Vertex T) → T → Option (Vertex T)
  | [], _ => none
  | (k, w) :: rest, key => if k = key then some w else hmGet rest key

/-- `HashMap::insert` on the association-list model: replace the value of
the entry with the given key and return the old value, or append a new
entry and return `none`. -/
def hmInsert : List (T × Vertex T) → T → Vertex T → Option (Vertex T) × List (T × Vertex T)
  | [], key, v => (none, [(key, v)])
  | (k, w) :: rest, key, v =>
    if k = key then (some w, (k, v) :: rest)
    else
      let r := hmInsert rest key v
      (r.1, (k, w) :: r.2)

/-- `HashMap::remove` on the association-list model: drop the entry with
the given key and return its old value. -/
def hmRemove : List (T × Vertex T) → T → Option (Vertex T) × List (T × Vertex T)
  | [], _ => (none, [])
  | (k, w) :: rest, key =>
    if k = key then (some w, rest)
    else
      let r := hmRemove rest key
      (r.1, (k, w) :: r.2)

/-- `HashMap::get_mut` followed by an in-place update of the found record:
apply `f` to the value of the entry with the given key, if any. -/
def hmModify : List (T × Vertex T) → T → (Vertex T → Vertex T) → List (T × Vertex T)
  | [], _, _ => []
  | (k, w) :: rest, key, f =>
    if k = key then (k, f w) :: rest else (k, w) :: hmModify rest key f

/-- The graph (`struct Graph<T>`): vertex counter, edge counter, and the
vertex map (`HashMap<T, Vertex<T>>`, modelled as an association list). -/
structure Graph (T : Type) where
  vertnums : Nat
  edgenums : Nat
  vertics : List (T × Vertex T)
deriving DecidableEq

/-- `Graph::new`: empty map, both counters zero. -/
def Graph.new : Graph T :=
  ⟨0, 0, []⟩

/-- `Graph::is_empty`: true iff the vertex counter is zero. -/
def Graph.is_empty (g : Graph T) : Bool :=
  decide (g.vertnums = 0)

/-- `Graph::vertex_num`: the vertex counter, verbatim. -/
def Graph.vertex_num (g : Graph T) : Nat :=
  g.vertnums

/-- `Graph::edge_num`: the edge counter, verbatim. -/
def Graph.edge_num (g : Graph T) : Nat :=
  g.edgenums

/-- `Graph::contains`: linear scan of the map entries for the key. -/
def Graph.contains (g : Graph T) (key : T) : Bool :=
  g.vertics.any fun p => decide (p.1 = key)

/-- `Graph::add_vertex`: unconditionally increment the vertex counter and
insert a fresh record, returning whatever record the insertion displaced. -/
def Graph.add_vertex (g : Graph T) (key : T) : Option (Vertex T) × Graph T :=
  let vertex := Vertex.new key
  let r := hmInsert g.vertics key vertex
  (r.1, { vertnums := g.vertnums + 1, edgenums := g.edgenums, vertics := r.2 })

/-- `Graph::get_vertex`: read-only lookup in the vertex map. -/
def Graph.get_vertex (g : Graph T) (key : T) : Option (Vertex T) :=
  hmGet g.vertics key

/-- `Graph::vertex_keys`: the keys of the vertex map, as a list. -/
def Graph.vertex_keys (g : Graph T) : List T :=
  g.vertics.map Prod.fst

/-- The cleanup loop of `Graph::remove_vertex` over the remaining map
entries: for each vertex whose list contains the removed key, `retain`
drops every matching entry and the edge counter is decremented once.
Returns the updated entries together with the number of such decrements. -/
def removeLoop (key : T) : List (T × Vertex T) → List (T × Vertex T) × Nat
  | [] => ([], 0)
  | (k, vt) :: rest =>
    let r := removeLoop key rest
    if vt.adjacent_key key then
      ((k, { vt with neighbors := vt.neighbors.filter fun q => decide (q.1 ≠ key) }) :: r.1, r.2 + 1)
    else
      ((k, vt) :: r.1, r.2)

/-- `Graph::remove_vertex`: remove the record, decrement the vertex
counter, decrement the edge counter by the removed record's neighbor-list
length, then run the cleanup loop over the remaining vertices.
`Except.error` models the panic of `old_vertex.clone().unwrap()` when the
key was absent (the counter decrements of that path die with the panic). -/
def Graph.remove_vertex (g : Graph T) (key : T) : Except String (Vertex T × Graph T) :=
  let r := hmRemove g.vertics key
  match r.1 with
  | none => Except.error "called unwrap on a None value"
  | some ov =>
    let r2 := removeLoop key r.2
    Except.ok (ov,
      { vertnums := g.vertnums - 1,
        edgenums := g.edgenums - ov.get_neighbors.length - r2.2,
        vertics := r2.1 })

/-- `Graph::add_edge`: create `frm` and `t` if absent, increment the edge
counter unconditionally, and append `(t, wt)` to `frm`'s neighbor list.
The source's `get_mut(from).unwrap()` cannot panic because `frm` is
present by then; `hmModify` is a no-op only in that unreachable case. -/
def Graph.add_edge (g : Graph T) (frm t : T) (wt : Int) : Graph T :=
  let g1 := if g.contains frm then g else (g.add_vertex frm).2
  let g2 := if g1.contains t then g1 else (g1.add_vertex t).2
  { g2 with
    edgenums := g2.edgenums + 1,
    vertics := hmModify g2.vertics frm fun v => v.add_neighbor t wt }

/-- `Graph::adjacent`: membership of `t` in `frm`'s neighbor list;
`Except.error` models the panic of the `unwrap` when `frm` is absent. -/
def Graph.adjacent (g : Graph T) (frm t : T) : Except String Bool :=
  match g.get_vertex frm with
  | some v => Except.ok (v.adjacent_key t)
  | none => Except.error "called unwrap on a None value"

/-- One mutating operation of the adjacency-list API. -/
inductive GraphOp (T : Type) where
  | add_vertex (key : T)
  | add_edge (frm t : T) (wt : Int)
  | remove_vertex (key : T)
deriving DecidableEq

/-- Run one operation.  A panicking `remove_vertex` (absent key) leaves the
graph unchanged here; every operation sequence considered below carries a
precondition making that branch unreachable. -/
def applyOp (g : Graph T) : GraphOp T → Graph T
  | .add_vertex k => (g.add_vertex k).2
  | .add_edge f t w => g.add_edge f t w
  | .remove_vertex k =>
    match g.remove_vertex k with
    | .ok p => p.2
    | .error _ => g

/-- Run a sequence of operations from the given graph. -/
def applyOps (g : Graph T) (ops : List (GraphOp T)) : Graph T :=
  ops.foldl applyOp g

/-- Total number of neighbor-list entries over all vertex records: the
quantity `edge_num()` is supposed to track. -/
def edgeSum (m : List (T × Vertex T)) : Nat :=
  (m.map fun p => p.2.neighbors.length).sum

/-- Number of neighbor entries over all records of `m` whose key equals
`key`: the entries `remove_vertex key` deletes from remaining vertices. -/
def totalMatches (key : T) (m : List (T × Vertex T)) : Nat :=
  (m.map fun p => (p.2.neighbors.filter fun q => decide (q.1 = key)).length).sum

/-- True iff after removing `key`'s own record every remaining record has
at most one neighbor entry with key `key` (no parallel edges into `key`). -/
def atMostOneInto (g : Graph T) (key : T) : Bool :=
  (hmRemove g.vertics key).2.all fun p =>
    decide ((p.2.neighbors.filter fun q => decide (q.1 = key)).length ≤ 1)

/-- Precondition of the frozen invariant claims: `remove_vertex` is only
applied to present keys; `add_vertex` and `add_edge` are unrestricted. -/
def presentPre (g : Graph T) : GraphOp T → Bool
  | .add_vertex _ => true
  | .add_edge _ _ _ => true
  | .remove_vertex k => g.contains k

/-- Restricted precondition: `add_vertex` only on absent keys,
`remove_vertex` only on present keys. -/
def freshPre (g : Graph T) : GraphOp T → Bool
  | .add_vertex k => !g.contains k
  | .add_edge _ _ _ => true
  | .remove_vertex k => g.contains k

/-- Restricted precondition for the edge-count invariant: `add_vertex`
only on absent keys, `remove_vertex` only on present keys with no
parallel edges into them from the remaining vertices. -/
def safePre (g : Graph T) : GraphOp T → Bool
  | .add_vertex k => !g.contains k
  | .add_edge _ _ _ => true
  | .remove_vertex k => g.contains k && atMostOneInto g k

/-- A whole operation sequence satisfies the per-operation precondition
`pre` along its execution. -/
def seqOK (pre : Graph T → GraphOp T → Bool) : Graph T → List (GraphOp T) → Bool
  | _, [] => true
  | g, op :: rest => pre g op && seqOK pre (applyOp g op) rest

/-- The record transformation `remove_vertex key` applies to each remaining
map entry: filter out the neighbor entries whose key is the removed key. -/
def entryFilter (key : T) (p : T × Vertex T) : T × Vertex T :=
  (p.1, { p.2 with neighbors := p.2.neighbors.filter fun q => decide (q.1 ≠ key) })

lemma hmGet_isSome_eq_any (m : List (T × Vertex T)) (key : T) :
    (hmGet m key).isSome = m.any fun p => decide (p.1 = key) := by
  induction m with
  | nil => rfl
  | cons p rest ih =>
    obtain ⟨k, w⟩ := p
    by_cases h : k = key <;> simp [hmGet, h, ih]

lemma contains_eq_isSome (g : Graph T) (key : T) :
    g.contains key = (hmGet g.vertics key).isSome := by
  rw [hmGet_isSome_eq_any]; rfl

lemma hmGet_eq_none_iff (m : List (T × Vertex T)) (key : T) :
    hmGet m key = none ↔ ∀ p ∈ m, p.1 ≠ key := by
  induction m with
  | nil => simp [hmGet]
  | cons p rest ih =>
    obtain ⟨k, w⟩ := p
    by_cases h : k = key <;> simp [hmGet, h, ih]

lemma contains_false_iff (g : Graph T) (key : T) :
    g.contains key = false ↔ hmGet g.vertics key = none := by
  rw [contains_eq_isSome]
  cases hmGet g.vertics key <;> simp

lemma contains_true_iff (g : Graph T) (key : T) :
    g.contains key = true ↔ ∃ v, hmGet g.vertics key = some v := by
  rw [contains_eq_isSome]
  cases hmGet g.vertics key <;> simp

lemma contains_iff_mem (g : Graph T) (key : T) :
    g.contains key = true ↔ key ∈ g.vertex_keys := by
  unfold Graph.contains Graph.vertex_keys
  simp [List.any_eq_true, List.mem_map]

lemma hmInsert_fst (m : List (T × Vertex T)) (key : T) (v : Vertex T) :
    (hmInsert m key v).1 = hmGet m key := by
  induction m with
  | nil => rfl
  | cons p rest ih =>
    obtain ⟨k, w⟩ := p
    by_cases h : k = key <;> simp [hmInsert, hmGet, h, ih]

lemma hmInsert_of_forall_ne (m : List (T × Vertex T)) (key : T) (v : Vertex T)
    (h : ∀ p ∈ m, p.1 ≠ key) :
    hmInsert m key v = (none, m ++ [(key, v)]) := by
  induction m with
  | nil => rfl
  | cons p rest ih =>
    obtain ⟨k, w⟩ := p
    have hk : k ≠ key := h (k, w) (by simp)
    simp only [hmInsert, if_neg hk, List.cons_append]
    rw [ih fun p hp => h p (by simp [hp])]

lemma hmGet_hmInsert_self (m : List (T × Vertex T)) (key : T) (v : Vertex T) :
    hmGet (hmInsert m key v).2 key = some v := by
  induction m with
  | nil => simp [hmInsert, hmGet]
  | cons p rest ih =>
    obtain ⟨k, w⟩ := p
    by_cases h : k = key <;> simp [hmInsert, hmGet, h, ih]

lemma hmGet_hmInsert_ne (m : List (T × Vertex T)) (key k : T) (v : Vertex T)
    (h : k ≠ key) :
    hmGet (hmInsert m key v).2 k = hmGet m k := by
  induction m with
  | nil =>
    simp only [hmInsert, hmGet]
    rw [if_neg fun hh => h hh.symm]
  | cons p rest ih =>
    obtain ⟨k0, w⟩ := p
    by_cases h0 : k0 = key
    · subst h0
      simp only [hmInsert, if_pos rfl, hmGet]
      rw [if_neg fun hh => h hh.symm, if_neg fun hh => h hh.symm]
    · simp only [hmInsert, if_neg h0, hmGet]
      by_cases h1 : k0 = k
      · rw [if_pos h1, if_pos h1]
      · rw [if_neg h1, if_neg h1]
        exact ih

lemma hmRemove_fst (m : List (T × Vertex T)) (key : T) :
    (hmRemove m key).1 = hmGet m key := by
  induction m with
  | nil => rfl
  | cons p rest ih =>
    obtain ⟨k, w⟩ := p
    by_cases h : k = key <;> simp [hmRemove, hmGet, h, ih]

lemma hmGet_hmRemove_ne (m : List (T × Vertex T)) (key k : T) (h : k ≠ key) :
    hmGet (hmRemove m key).2 k = hmGet m k := by
  induction m with
  | nil => rfl
  | cons p rest ih =>
    obtain ⟨k0, w⟩ := p
    by_cases h0 : k0 = key
    · subst h0
      have hne : ¬(k0 = k) := fun hh => h hh.symm
      simp [hmRemove, hmGet, hne]
    · by_cases h1 : k0 = k <;> simp [hmRemove, hmGet, h0, h1, ih, h]

lemma edgeSum_hmRemove (m : List (T × Vertex T)) (key : T) (v : Vertex T)
    (h : hmGet m key = some v) :
    edgeSum (hmRemove m key).2 + v.neighbors.length = edgeSum m := by
  induction m with
  | nil => simp [hmGet] at h
  | cons p rest ih =>
    obtain ⟨k, w⟩ := p
    by_cases hk : k = key
    · simp only [hmGet, if_pos hk] at h
      obtain rfl : w = v := by injection h
      simp [hmRemove, hk, edgeSum]
      omega
    · simp only [hmGet, if_neg hk] at h
      simp only [hmRemove, if_neg hk, edgeSum, List.map_cons, List.sum_cons]
      have := ih h
      simp only [edgeSum] at this
      omega

lemma length_hmRemove (m : List (T × Vertex T)) (key : T) (v : Vertex T)
    (h : hmGet m key = some v) :
    (hmRemove m key).2.length + 1 = m.length := by
  induction m with
  | nil => simp [hmGet] at h
  | cons p rest ih =>
    obtain ⟨k, w⟩ := p
    by_cases hk : k = key
    · simp [hmRemove, hk]
    · simp only [hmGet, if_neg hk] at h
      simp only [hmRemove, if_neg hk, List.length_cons]
      have := ih h
      omega

lemma keys_hmRemove_sublist (m : List (T × Vertex T)) (key : T) :
    ((hmRemove m key).2.map Prod.fst).Sublist (m.map Prod.fst) := by
  induction m with
  | nil => simp [hmRemove]
  | cons p rest ih =>
    obtain ⟨k, w⟩ := p
    by_cases hk : k = key
    · simp only [hmRemove, if_pos hk]
      exact List.Sublist.cons k (List.Sublist.refl _)
    · simp only [hmRemove, if_neg hk, List.map_cons]
      exact ih.cons₂ k

lemma forall_ne_hmRemove (m : List (T × Vertex T)) (key : T)
    (hnd : (m.map Prod.fst).Nodup) :
    ∀ p ∈ (hmRemove m key).2, p.1 ≠ key := by
  induction m with
  | nil => simp [hmRemove]
  | cons p rest ih =>
    obtain ⟨k, w⟩ := p
    simp only [List.map_cons, List.nodup_cons] at hnd
    by_cases hk : k = key
    · subst hk
      simp only [hmRemove, if_pos rfl]
      intro q hq hqk
      exact hnd.1 (hqk ▸ List.mem_map_of_mem Prod.fst hq)
    · simp only [hmRemove, if_neg hk]
      intro q hq
      rcases List.mem_cons.mp hq with rfl | hq2
      · exact hk
      · exact ih hnd.2 q hq2

lemma hmModify_map_fst (m : List (T × Vertex T)) (key : T) (f : Vertex T → Vertex T) :
    (hmModify m key f).map Prod.fst = m.map Prod.fst := by
  induction m with
  | nil => rfl
  | cons p rest ih =>
    obtain ⟨k, w⟩ := p
    by_cases hk : k = key <;> simp [hmModify, hk, ih]

lemma hmGet_hmModify_self (m : List (T × Vertex T)) (key : T)
    (f : Vertex T → Vertex T) (v : Vertex T) (h : hmGet m key = some v) :
    hmGet (hmModify m key f) key = some (f v) := by
  induction m with
  | nil => simp [hmGet] at h
  | cons p rest ih =>
    obtain ⟨k, w⟩ := p
    by_cases hk : k = key
    · simp only [hmGet, if_pos hk] at h
      obtain rfl : w = v := by injection h
      simp [hmModify, hmGet, hk]
    · simp only [hmGet, if_neg hk] at h
      simp [hmModify, hmGet, hk, ih h]

lemma hmGet_hmModify_ne (m : List (T × Vertex T)) (key k : T)
    (f : Vertex T → Vertex T) (h : k ≠ key) :
    hmGet (hmModify m key f) k = hmGet m k := by
  induction m with
  | nil => rfl
  | cons p rest ih =>
    obtain ⟨k0, w⟩ := p
    by_cases h0 : k0 = key
    · subst h0
      simp only [hmModify, if_pos rfl, hmGet]
      rw [if_neg fun hh => h hh.symm, if_neg fun hh => h hh.symm]
    · simp only [hmModify, if_neg h0, hmGet]
      by_cases h1 : k0 = k
      · rw [if_pos h1, if_pos h1]
      · rw [if_neg h1, if_neg h1]
        exact ih

lemma edgeSum_hmModify_addNeighbor (m : List (T × Vertex T)) (key : T)
    (t : T) (w : Int) (v : Vertex T) (h : hmGet m key = some v) :
    edgeSum (hmModify m key fun u => u.add_neighbor t w) = edgeSum m + 1 := by
  induction m with
  | nil => simp [hmGet] at h
  | cons p rest ih =>
    obtain ⟨k, w0⟩ := p
    by_cases hk : k = key
    · simp [hmModify, hk, edgeSum, Vertex.add_neighbor]
      omega
    · simp only [hmGet, if_neg hk] at h
      simp only [hmModify, if_neg hk, edgeSum, List.map_cons, List.sum_cons]
      have := ih h
      simp only [edgeSum] at this
      omega

omit [DecidableEq T] in
lemma edgeSum_append (m l : List (T × Vertex T)) :
    edgeSum (m ++ l) = edgeSum m + edgeSum l := by
  simp [edgeSum]

lemma filter_ne_eq_self (l : List (T × Int)) (key : T)
    (h : (l.any fun p => decide (p.1 = key)) = false) :
    (l.filter fun q => decide (q.1 ≠ key)) = l := by
  induction l with
  | nil => rfl
  | cons q rest ih =>
    simp only [List.any_cons, Bool.or_eq_false_iff] at h
    have hq : ¬(q.1 = key) := by simpa using h.1
    rw [List.filter_cons, if_pos (by simp [hq]), ih h.2]

lemma filter_eq_nil_of_any_false (l : List (T × Int)) (key : T)
    (h : (l.any fun p => decide (p.1 = key)) = false) :
    (l.filter fun q => decide (q.1 = key)) = [] := by
  induction l with
  | nil => rfl
  | cons q rest ih =>
    simp only [List.any_cons, Bool.or_eq_false_iff] at h
    have hq : ¬(q.1 = key) := by simpa using h.1
    rw [List.filter_cons, if_neg (by simp [hq]), ih h.2]

lemma filter_pos_of_any_true (l : List (T × Int)) (key : T)
    (h : (l.any fun p => decide (p.1 = key)) = true) :
    0 < (l.filter fun q => decide (q.1 = key)).length := by
  rw [List.any_eq_true] at h
  obtain ⟨q, hq, hd⟩ := h
  have : q ∈ l.filter fun q => decide (q.1 = key) := List.mem_filter.mpr ⟨hq, hd⟩
  exact List.length_pos.mpr (List.ne_nil_of_mem this)

lemma length_filter_compl (l : List (T × Int)) (key : T) :
    (l.filter fun q => decide (q.1 ≠ key)).length
      + (l.filter fun q => decide (q.1 = key)).length = l.length := by
  induction l with
  | nil => rfl
  | cons q rest ih =>
    by_cases hq : q.1 = key
    · rw [List.filter_cons, List.filter_cons, if_neg (by simp [hq]), if_pos (by simp [hq])]
      simp only [List.length_cons]
      omega
    · rw [List.filter_cons, List.filter_cons, if_pos (by simp [hq]), if_neg (by simp [hq])]
      simp only [List.length_cons]
      omega

lemma removeLoop_fst (key : T) (m : List (T × Vertex T)) :
    (removeLoop key m).1 = m.map (entryFilter key) := by
  induction m with
  | nil => rfl
  | cons p rest ih =>
    obtain ⟨k, vt⟩ := p
    by_cases ha : vt.adjacent_key key
    · simp [removeLoop, ha, ih, entryFilter]
    · have ha' : (vt.neighbors.any fun p => decide (p.1 = key)) = false :=
        Bool.eq_false_iff.mpr ha
      have hfe := filter_ne_eq_self vt.neighbors key ha'
      have hfe' : (vt.neighbors.filter fun q => !decide (q.1 = key)) = vt.neighbors := by
        simpa using hfe
      simp [removeLoop, ha, ih, entryFilter, hfe, hfe']

lemma map_fst_map_entryFilter (key : T) (m : List (T × Vertex T)) :
    (m.map (entryFilter key)).map Prod.fst = m.map Prod.fst := by
  simp [entryFilter, List.map_map]

lemma edgeSum_map_entryFilter (key : T) (m : List (T × Vertex T)) :
    edgeSum (m.map (entryFilter key)) + totalMatches key m = edgeSum m := by
  induction m with
  | nil => rfl
  | cons p rest ih =>
    simp only [List.map_cons, edgeSum, totalMatches, List.sum_cons, entryFilter] at *
    have := length_filter_compl p.2.neighbors key
    omega

lemma removeLoop_snd (key : T) (m : List (T × Vertex T))
    (hone : ∀ p ∈ m, (p.2.neighbors.filter fun q => decide (q.1 = key)).length ≤ 1) :
    (removeLoop key m).2 = totalMatches key m := by
  induction m with
  | nil => rfl
  | cons p rest ih =>
    obtain ⟨k, vt⟩ := p
    have hrest := ih fun q hq => hone q (by simp [hq])
    by_cases ha : vt.adjacent_key key
    · have h1 : 0 < (vt.neighbors.filter fun q => decide (q.1 = key)).length :=
        filter_pos_of_any_true vt.neighbors key ha
      have h2 : (vt.neighbors.filter fun q => decide (q.1 = key)).length ≤ 1 :=
        hone (k, vt) (by simp)
      simp only [removeLoop, if_pos ha, totalMatches, List.map_cons, List.sum_cons]
      simp only [totalMatches] at hrest
      omega
    · have h0 := filter_eq_nil_of_any_false vt.neighbors key (Bool.eq_false_iff.mpr ha)
      simp only [removeLoop, if_neg ha, totalMatches, List.map_cons, List.sum_cons, h0]
      simp only [totalMatches] at hrest
      simp [hrest]

lemma hmGet_map_entryFilter (key k : T) (m : List (T × Vertex T)) :
    hmGet (m.map (entryFilter key)) k
      = (hmGet m k).map fun v =>
          { v with neighbors := v.neighbors.filter fun q => decide (q.1 ≠ key) } := by
  induction m with
  | nil => rfl
  | cons p rest ih =>
    obtain ⟨k0, w⟩ := p
    by_cases h0 : k0 = k <;> simp [entryFilter, hmGet, h0, ih]

lemma not_any_key_removeLoop (key : T) (m : List (T × Vertex T))
    (hnd : (m.map Prod.fst).Nodup) :
    ((removeLoop key (hmRemove m key).2).1.any fun p => decide (p.1 = key)) = false := by
  rw [removeLoop_fst]
  rw [Bool.eq_false_iff]
  intro hc
  rw [List.any_eq_true] at hc
  obtain ⟨q, hq, hd⟩ := hc
  rw [List.mem_map] at hq
  obtain ⟨q0, hq0, rfl⟩ := hq
  have : q0.1 ≠ key := forall_ne_hmRemove m key hnd q0 hq0
  simp [entryFilter] at hd
  exact this hd

omit [DecidableEq T] in
lemma get_neighbors_length (v : Vertex T) :
    v.get_neighbors.length = v.neighbors.length := by
  simp [Vertex.get_neighbors]

omit [DecidableEq T] in
lemma nodup_append_singleton (l : List T) (a : T) (h : l.Nodup) (ha : a ∉ l) :
    (l ++ [a]).Nodup := by
  induction l with
  | nil => simp
  | cons x rest ih =>
    rw [List.nodup_cons] at h
    rw [List.cons_append, List.nodup_cons]
    refine ⟨?_, ih h.2 fun hm => ha (by simp [hm])⟩
    intro hx
    rcases List.mem_append.mp hx with hx | hx
    · exact h.1 hx
    · exact ha (by simp [List.mem_singleton.mp hx])

lemma add_vertex_fresh_spec (g : Graph T) (k : T) (h : g.contains k = false) :
    (g.add_vertex k).2.vertics = g.vertics ++ [(k, Vertex.new k)] ∧
    (g.add_vertex k).2.vertnums = g.vertnums + 1 ∧
    (g.add_vertex k).2.edgenums = g.edgenums ∧
    (g.add_vertex k).1 = none := by
  have hnone : hmGet g.vertics k = none := (contains_false_iff g k).mp h
  have hne : ∀ p ∈ g.vertics, p.1 ≠ k := (hmGet_eq_none_iff g.vertics k).mp hnone
  have hins := hmInsert_of_forall_ne g.vertics k (Vertex.new k) hne
  exact ⟨by simp [Graph.add_vertex, hins], rfl, rfl, by simp [Graph.add_vertex, hins]⟩

lemma contains_add_vertex_self (g : Graph T) (k : T) :
    (g.add_vertex k).2.contains k = true := by
  rw [contains_eq_isSome]
  show (hmGet (hmInsert g.vertics k (Vertex.new k)).2 k).isSome = true
  rw [hmGet_hmInsert_self]
  rfl

lemma remove_vertex_eq (g : Graph T) (key : T) (ov : Vertex T)
    (hget : g.get_vertex key = some ov) :
    g.remove_vertex key = Except.ok (ov,
      { vertnums := g.vertnums - 1,
        edgenums := g.edgenums - ov.get_neighbors.length
          - (removeLoop key (hmRemove g.vertics key).2).2,
        vertics := (removeLoop key (hmRemove g.vertics key).2).1 }) := by
  have h1 : (hmRemove g.vertics key).1 = some ov := by
    rw [hmRemove_fst]
    exact hget
  simp [Graph.remove_vertex, h1]


/-- The graph state of `Graph::add_edge` after the two implicit vertex
creations, just before the counter bump and the neighbor push. -/
def addEdgeMid (g : Graph T) (f t : T) : Graph T :=
  let g1 := if g.contains f then g else (g.add_vertex f).2
  if g1.contains t then g1 else (g1.add_vertex t).2

lemma add_edge_eq (g : Graph T) (f t : T) (w : Int) :
    g.add_edge f t w = { addEdgeMid g f t with
      edgenums := (addEdgeMid g f t).edgenums + 1,
      vertics := hmModify (addEdgeMid g f t).vertics f fun v => v.add_neighbor t w } :=
  rfl

lemma add_edge_mid (g : Graph T) (f t : T) :
    (addEdgeMid g f t).edgenums = g.edgenums ∧
    edgeSum (addEdgeMid g f t).vertics = edgeSum g.vertics ∧
    (∃ v, hmGet (addEdgeMid g f t).vertics f = some v ∧
       v.neighbors = ((g.get_vertex f).map Vertex.neighbors).getD []) ∧
    (∃ u, hmGet (addEdgeMid g f t).vertics t = some u) ∧
    (g.contains t = false → hmGet (addEdgeMid g f t).vertics t = some (Vertex.new t)) ∧
    (g.contains f = false → f = t → (addEdgeMid g f t).vertnums = g.vertnums + 1) ∧
    ((g.vertnums = g.vertics.length ∧ (g.vertics.map Prod.fst).Nodup) →
       ((addEdgeMid g f t).vertnums = (addEdgeMid g f t).vertics.length ∧
        ((addEdgeMid g f t).vertics.map Prod.fst).Nodup)) := by
  by_cases hcf : g.contains f = true
  · obtain ⟨v, hv⟩ := (contains_true_iff g f).mp hcf
    by_cases hct : g.contains t = true
    · have hg2 : addEdgeMid g f t = g := by
        simp only [addEdgeMid]
        rw [if_pos hcf, if_pos hct]
      rw [hg2]
      obtain ⟨u, hu⟩ := (contains_true_iff g t).mp hct
      refine ⟨rfl, rfl, ⟨v, hv, ?_⟩, ⟨u, hu⟩, ?_, ?_, fun hi => hi⟩
      · simp [Graph.get_vertex, hv]
      · intro hf
        rw [hf] at hct
        cases hct
      · intro hf
        rw [hf] at hcf
        cases hcf
    · have hct' : g.contains t = false := Bool.eq_false_iff.mpr hct
      have hg2 : addEdgeMid g f t = (g.add_vertex t).2 := by
        simp only [addEdgeMid]
        rw [if_pos hcf, if_neg hct]
      obtain ⟨hvt, hvn, hen, _⟩ := add_vertex_fresh_spec g t hct'
      have htf : f ≠ t := by
        intro hft
        rw [← hft] at hct'
        rw [hcf] at hct'
        cases hct'
      rw [hg2]
      refine ⟨hen, ?_, ⟨v, ?_, ?_⟩, ⟨Vertex.new t, ?_⟩, fun _ => ?_, ?_, ?_⟩
      · rw [hvt, edgeSum_append]
        simp [edgeSum, Vertex.new]
      · show hmGet (hmInsert g.vertics t (Vertex.new t)).2 f = some v
        rw [hmGet_hmInsert_ne g.vertics t f (Vertex.new t) htf]
        exact hv
      · simp [Graph.get_vertex, hv]
      · show hmGet (hmInsert g.vertics t (Vertex.new t)).2 t = some (Vertex.new t)
        exact hmGet_hmInsert_self g.vertics t (Vertex.new t)
      · show hmGet (hmInsert g.vertics t (Vertex.new t)).2 t = some (Vertex.new t)
        exact hmGet_hmInsert_self g.vertics t (Vertex.new t)
      · intro hf
        rw [hf] at hcf
        cases hcf
      · rintro ⟨hlen, hnd⟩
        have htm : t ∉ g.vertics.map Prod.fst := by
          intro hm
          rw [← Graph.vertex_keys, ← contains_iff_mem] at hm
          rw [hm] at hct'
          cases hct'
        refine ⟨?_, ?_⟩
        · rw [hvn, hvt, hlen]
          simp
        · rw [hvt, List.map_append]
          exact nodup_append_singleton _ t hnd (by simpa using htm)
  · have hcf' : g.contains f = false := Bool.eq_false_iff.mpr hcf
    obtain ⟨hvt1, hvn1, hen1, _⟩ := add_vertex_fresh_spec g f hcf'
    have hg1f : hmGet (g.add_vertex f).2.vertics f = some (Vertex.new f) := by
      show hmGet (hmInsert g.vertics f (Vertex.new f)).2 f = some (Vertex.new f)
      exact hmGet_hmInsert_self g.vertics f (Vertex.new f)
    have hgf_none : g.get_vertex f = none := (contains_false_iff g f).mp hcf'
    have hfm : f ∉ g.vertics.map Prod.fst := by
      intro hm
      rw [← Graph.vertex_keys, ← contains_iff_mem] at hm
      rw [hm] at hcf'
      cases hcf'
    by_cases hct : (g.add_vertex f).2.contains t = true
    · have hg2 : addEdgeMid g f t = (g.add_vertex f).2 := by
        simp only [addEdgeMid]
        rw [if_neg hcf, if_pos hct]
      obtain ⟨u, hu⟩ := (contains_true_iff (g.add_vertex f).2 t).mp hct
      rw [hg2]
      refine ⟨hen1, ?_, ⟨Vertex.new f, hg1f, ?_⟩, ⟨u, hu⟩, ?_, ?_, ?_⟩
      · rw [hvt1, edgeSum_append]
        simp [edgeSum, Vertex.new]
      · simp [hgf_none, Vertex.new]
      · intro hgt
        have htf : t = f := by
          by_contra htf
          have heq : hmGet (g.add_vertex f).2.vertics t = hmGet g.vertics t := by
            show hmGet (hmInsert g.vertics f (Vertex.new f)).2 t = hmGet g.vertics t
            exact hmGet_hmInsert_ne g.vertics f t (Vertex.new f) htf
          have hnone : hmGet g.vertics t = none := (contains_false_iff g t).mp hgt
          rw [contains_eq_isSome, heq, hnone] at hct
          cases hct
        rw [htf, hg1f]
      · intro _ _
        exact hvn1
      · rintro ⟨hlen, hnd⟩
        rw [hvt1, hvn1]
        refine ⟨?_, ?_⟩
        · rw [hlen]
          simp
        · rw [List.map_append]
          exact nodup_append_singleton _ f hnd (by simpa using hfm)
    · have hct' : (g.add_vertex f).2.contains t = false := Bool.eq_false_iff.mpr hct
      have hg2 : addEdgeMid g f t = ((g.add_vertex f).2.add_vertex t).2 := by
        simp only [addEdgeMid]
        rw [if_neg hcf, if_neg hct]
      obtain ⟨hvt2, hvn2, hen2, _⟩ := add_vertex_fresh_spec (g.add_vertex f).2 t hct'
      have htf : t ≠ f := by
        intro hft
        rw [hft, contains_eq_isSome, hg1f] at hct'
        cases hct'
      have htm1 : t ∉ (g.add_vertex f).2.vertics.map Prod.fst := by
        intro hm
        rw [← Graph.vertex_keys, ← contains_iff_mem] at hm
        rw [hm] at hct'
        cases hct'
      rw [hg2]
      refine ⟨by rw [hen2]; exact hen1, ?_, ⟨Vertex.new f, ?_, ?_⟩,
        ⟨Vertex.new t, ?_⟩, fun _ => ?_, ?_, ?_⟩
      · rw [hvt2, edgeSum_append, hvt1, edgeSum_append]
        simp [edgeSum, Vertex.new]
      · show hmGet (hmInsert (g.add_vertex f).2.vertics t (Vertex.new t)).2 f
          = some (Vertex.new f)
        rw [hmGet_hmInsert_ne (g.add_vertex f).2.vertics t f (Vertex.new t)
          (fun h => htf h.symm)]
        exact hg1f
      · simp [hgf_none, Vertex.new]
      · show hmGet (hmInsert (g.add_vertex f).2.vertics t (Vertex.new t)).2 t
          = some (Vertex.new t)
        exact hmGet_hmInsert_self (g.add_vertex f).2.vertics t (Vertex.new t)
      · show hmGet (hmInsert (g.add_vertex f).2.vertics t (Vertex.new t)).2 t
          = some (Vertex.new t)
        exact hmGet_hmInsert_self (g.add_vertex f).2.vertics t (Vertex.new t)
      · intro _ hft
        exact absurd hft.symm htf
      · rintro ⟨hlen, hnd⟩
        have hnd1 : ((g.add_vertex f).2.vertics.map Prod.fst).Nodup := by
          rw [hvt1, List.map_append]
          exact nodup_append_singleton _ f hnd (by simpa using hfm)
        refine ⟨?_, ?_⟩
        · rw [hvn2, hvt2, hvn1, hvt1, hlen]
          simp
        · rw [hvt2, List.map_append]
          exact nodup_append_singleton _ t hnd1 (by simpa using htm1)

omit [DecidableEq T] in
lemma bool_not_true {b : Bool} (h : (!b) = true) : b = false := by
  cases b
  · rfl
  · cases h

lemma hmModify_length (m : List (T × Vertex T)) (key : T) (f : Vertex T → Vertex T) :
    (hmModify m key f).length = m.length := by
  have h := congrArg List.length (hmModify_map_fst m key f)
  simpa using h

lemma edgeInv_step (g : Graph T) (op : GraphOp T) (hp : safePre g op = true)
    (hinv : g.edgenums = edgeSum g.vertics) :
    (applyOp g op).edgenums = edgeSum (applyOp g op).vertics := by
  cases op with
  | add_vertex k =>
    simp only [safePre] at hp
    have hk : g.contains k = false := bool_not_true hp
    obtain ⟨hvt, _, hen, _⟩ := add_vertex_fresh_spec g k hk
    show (g.add_vertex k).2.edgenums = edgeSum (g.add_vertex k).2.vertics
    rw [hen, hvt, edgeSum_append, hinv]
    simp [edgeSum, Vertex.new]
  | add_edge f t w =>
    obtain ⟨hen, hes, ⟨v, hv, _⟩, _, _, _, _⟩ := add_edge_mid g f t
    show (g.add_edge f t w).edgenums = edgeSum (g.add_edge f t w).vertics
    rw [add_edge_eq g f t w]
    show (addEdgeMid g f t).edgenums + 1
      = edgeSum (hmModify (addEdgeMid g f t).vertics f fun v => v.add_neighbor t w)
    rw [edgeSum_hmModify_addNeighbor (addEdgeMid g f t).vertics f t w v hv, hen, hes, hinv]
  | remove_vertex k =>
    simp only [safePre, Bool.and_eq_true] at hp
    obtain ⟨hc, hone⟩ := hp
    obtain ⟨ov, hov⟩ := (contains_true_iff g k).mp hc
    have hrm := remove_vertex_eq g k ov hov
    simp only [applyOp, hrm]
    have hsum : edgeSum (hmRemove g.vertics k).2 + ov.neighbors.length = edgeSum g.vertics :=
      edgeSum_hmRemove g.vertics k ov hov
    have hone2 : ∀ p ∈ (hmRemove g.vertics k).2,
        (p.2.neighbors.filter fun q => decide (q.1 = k)).length ≤ 1 := by
      intro p hps
      have hd := (List.all_eq_true.mp hone) p hps
      simpa using hd
    have hloop := removeLoop_snd k (hmRemove g.vertics k).2 hone2
    have hfst := removeLoop_fst k (hmRemove g.vertics k).2
    have hes2 := edgeSum_map_entryFilter k (hmRemove g.vertics k).2
    show g.edgenums - ov.get_neighbors.length - (removeLoop k (hmRemove g.vertics k).2).2
      = edgeSum (removeLoop k (hmRemove g.vertics k).2).1
    rw [hfst, hloop, get_neighbors_length]
    omega

lemma vertInv_step (g : Graph T) (op : GraphOp T) (hp : freshPre g op = true)
    (hinv : g.vertnums = g.vertics.length ∧ (g.vertics.map Prod.fst).Nodup) :
    (applyOp g op).vertnums = (applyOp g op).vertics.length ∧
    ((applyOp g op).vertics.map Prod.fst).Nodup := by
  cases op with
  | add_vertex k =>
    simp only [freshPre] at hp
    have hk : g.contains k = false := bool_not_true hp
    obtain ⟨hvt, hvn, _, _⟩ := add_vertex_fresh_spec g k hk
    have hkm : k ∉ g.vertics.map Prod.fst := by
      intro hm
      rw [← Graph.vertex_keys, ← contains_iff_mem] at hm
      rw [hm] at hk
      cases hk
    constructor
    · show (g.add_vertex k).2.vertnums = (g.add_vertex k).2.vertics.length
      rw [hvn, hvt, hinv.1]
      simp
    · show ((g.add_vertex k).2.vertics.map Prod.fst).Nodup
      rw [hvt, List.map_append]
      exact nodup_append_singleton _ k hinv.2 (by simpa using hkm)
  | add_edge f t w =>
    obtain ⟨_, _, _, _, _, _, hI⟩ := add_edge_mid g f t
    have h2 := hI hinv
    show (g.add_edge f t w).vertnums = (g.add_edge f t w).vertics.length ∧
      ((g.add_edge f t w).vertics.map Prod.fst).Nodup
    rw [add_edge_eq g f t w]
    constructor
    · show (addEdgeMid g f t).vertnums
        = (hmModify (addEdgeMid g f t).vertics f fun v => v.add_neighbor t w).length
      rw [hmModify_length]
      exact h2.1
    · show ((hmModify (addEdgeMid g f t).vertics f fun v => v.add_neighbor t w).map
        Prod.fst).Nodup
      rw [hmModify_map_fst]
      exact h2.2
  | remove_vertex k =>
    simp only [freshPre] at hp
    obtain ⟨ov, hov⟩ := (contains_true_iff g k).mp hp
    have hrm := remove_vertex_eq g k ov hov
    simp only [applyOp, hrm]
    have hlen := length_hmRemove g.vertics k ov hov
    have hfst := removeLoop_fst k (hmRemove g.vertics k).2
    constructor
    · show g.vertnums - 1 = (removeLoop k (hmRemove g.vertics k).2).1.length
      rw [hfst, List.length_map, hinv.1]
      omega
    · show ((removeLoop k (hmRemove g.vertics k).2).1.map Prod.fst).Nodup
      rw [hfst, map_fst_map_entryFilter]
      exact List.Nodup.sublist (keys_hmRemove_sublist g.vertics k) hinv.2

lemma applyOps_inv (pre : Graph T → GraphOp T → Bool) (P : Graph T → Prop)
    (step : ∀ g op, pre g op = true → P g → P (applyOp g op)) :
    ∀ ops g, seqOK pre g ops = true → P g → P (applyOps g ops)
  | [], _, _, hg => hg
  | op :: rest, g, hok, hg => by
    simp only [seqOK, Bool.and_eq_true] at hok
    exact applyOps_inv pre P step rest (applyOp g op) hok.2 (step g op hok.1 hg)

def cexOps1 : List (GraphOp Nat) :=
  [.add_edge 0 1 5, .add_vertex 0]

def cexOps1b : List (GraphOp Nat) :=
  [.add_edge 1 0 5, .add_edge 1 0 7, .remove_vertex 0]

/-- C1 (counterexample): two operation sequences that satisfy the claimed
precondition (`remove_vertex` only on present keys) after which `edge_num()`
differs from the sum of the neighbor-list lengths: re-adding vertex 0 after
`add_edge 0 1 5` discards its neighbor list without touching the counter,
and removing vertex 0 with two parallel edges 1→0 decrements the counter
once instead of twice. -/
theorem edge_num_invariant_cex :
    (seqOK presentPre (Graph.new : Graph Nat) cexOps1 = true ∧
      (applyOps (Graph.new : Graph Nat) cexOps1).edge_num
        ≠ edgeSum (applyOps (Graph.new : Graph Nat) cexOps1).vertics) ∧
    (seqOK presentPre (Graph.new : Graph Nat) cexOps1b = true ∧
      (applyOps (Graph.new : Graph Nat) cexOps1b).edge_num
        ≠ edgeSum (applyOps (Graph.new : Graph Nat) cexOps1b).vertics) := by
  decide

/-- C1 (amended): for every operation sequence in which `add_vertex` is
applied only to absent keys and `remove_vertex` only to present keys with
no parallel edges into them from the remaining vertices, the final
`edge_num()` equals the sum of the neighbor-list lengths over all vertex
records of the map. -/
theorem edge_num_eq_edgeSum_of_safe (ops : List (GraphOp T))
    (h : seqOK safePre Graph.new ops = true) :
    (applyOps (Graph.new : Graph T) ops).edge_num
      = edgeSum (applyOps (Graph.new : Graph T) ops).vertics :=
  applyOps_inv safePre (fun g => g.edgenums = edgeSum g.vertics)
    (fun g op hp hi => edgeInv_step g op hp hi) ops Graph.new h rfl

def wOps1 : List (GraphOp Nat) :=
  [.add_vertex 0, .add_edge 0 1 5, .add_edge 1 0 7, .remove_vertex 0]

theorem edge_num_eq_edgeSum_of_safe_witness :
    seqOK safePre (Graph.new : Graph Nat) wOps1 = true ∧
    (applyOps (Graph.new : Graph Nat) wOps1).edge_num
      = edgeSum (applyOps (Graph.new : Graph Nat) wOps1).vertics :=
  ⟨by decide, edge_num_eq_edgeSum_of_safe wOps1 (by decide)⟩

/-- C2 (code bug): on an absent key `remove_vertex` does not return the
`NotFound` `none` the spec promises; the `old_vertex.clone().unwrap()` on
`None` panics, modelled here as `Except.error`. -/
theorem remove_vertex_absent_panics (g : Graph T) (key : T)
    (h : g.contains key = false) :
    g.remove_vertex key = Except.error "called unwrap on a None value" := by
  have hnone : hmGet g.vertics key = none := (contains_false_iff g key).mp h
  have h1 : (hmRemove g.vertics key).1 = none := by
    rw [hmRemove_fst]
    exact hnone
  simp [Graph.remove_vertex, h1]

theorem remove_vertex_absent_panics_witness :
    (Graph.new : Graph Nat).contains 0 = false ∧
    (Graph.new : Graph Nat).remove_vertex 0
      = Except.error "called unwrap on a None value" :=
  ⟨by decide, remove_vertex_absent_panics Graph.new 0 (by decide)⟩

def gPar : Graph Nat :=
  applyOps Graph.new [.add_edge 1 0 5, .add_edge 1 0 7]

/-- C3 (counterexample): with two parallel edges 1→0, removing vertex 0
(whose own list is empty) deletes two entries from vertex 1's list but
decrements the edge counter only once: the result is 1, not the 0 the
one-per-removed-entry claim predicts. -/
theorem remove_vertex_parallel_cex :
    gPar.edge_num = 2 ∧
    (gPar.get_vertex 0).map (fun v => v.neighbors.length) = some 0 ∧
    totalMatches 0 (hmRemove gPar.vertics 0).2 = 2 ∧
    (gPar.remove_vertex 0).toOption.map (fun p => p.2.edge_num) = some 1 ∧
    (gPar.remove_vertex 0).toOption.map (fun p => p.2.edge_num) ≠ some 0 := by
  decide

/-- C3 (amended): removing a present key returns the record as it was at
removal, decrements the vertex counter by one, filters the key out of every
remaining neighbor list, and leaves the key absent; the edge counter drops
by the removed record's list length plus the number of matching entries in
the remaining records, provided every remaining record holds at most one
such entry (the code decrements once per affected vertex, which under that
restriction equals once per removed entry). -/
theorem remove_vertex_spec (g : Graph T) (key : T) (ov : Vertex T)
    (hget : g.get_vertex key = some ov)
    (hnd : g.vertex_keys.Nodup)
    (hone : atMostOneInto g key = true) :
    ∃ g', g.remove_vertex key = Except.ok (ov, g') ∧
      g'.vertex_num = g.vertex_num - 1 ∧
      g'.edge_num = g.edge_num - ov.neighbors.length
        - totalMatches key (hmRemove g.vertics key).2 ∧
      g'.contains key = false ∧
      ∀ k, k ≠ key → g'.get_vertex k = (g.get_vertex k).map fun v =>
        { v with neighbors := v.neighbors.filter fun q => decide (q.1 ≠ key) } := by
  have hrm := remove_vertex_eq g key ov hget
  refine ⟨_, hrm, rfl, ?_, ?_, ?_⟩
  · show g.edgenums - ov.get_neighbors.length - (removeLoop key (hmRemove g.vertics key).2).2
      = g.edgenums - ov.neighbors.length - totalMatches key (hmRemove g.vertics key).2
    have hone2 : ∀ p ∈ (hmRemove g.vertics key).2,
        (p.2.neighbors.filter fun q => decide (q.1 = key)).length ≤ 1 := by
      intro p hps
      have hd := (List.all_eq_true.mp hone) p hps
      simpa using hd
    rw [removeLoop_snd key (hmRemove g.vertics key).2 hone2, get_neighbors_length]
  · show ((removeLoop key (hmRemove g.vertics key).2).1.any fun p => decide (p.1 = key))
      = false
    exact not_any_key_removeLoop key g.vertics hnd
  · intro k hk
    show hmGet (removeLoop key (hmRemove g.vertics key).2).1 k
      = (g.get_vertex k).map fun v =>
          { v with neighbors := v.neighbors.filter fun q => decide (q.1 ≠ key) }
    rw [removeLoop_fst, hmGet_map_entryFilter, hmGet_hmRemove_ne g.vertics key k hk]
    rfl

def gW3 : Graph Nat :=
  applyOps Graph.new [.add_edge 0 1 5, .add_edge 2 1 7, .add_edge 1 3 2]

theorem remove_vertex_spec_witness :
    ∃ g', gW3.remove_vertex 1 = Except.ok (⟨1, [(3, 2)]⟩, g') ∧
      g'.vertex_num = gW3.vertex_num - 1 ∧
      g'.edge_num = gW3.edge_num - (Vertex.mk (1 : Nat) [(3, 2)]).neighbors.length
        - totalMatches 1 (hmRemove gW3.vertics 1).2 ∧
      g'.contains 1 = false ∧
      ∀ k, k ≠ 1 → g'.get_vertex k = (gW3.get_vertex k).map fun v =>
        { v with neighbors := v.neighbors.filter fun q => decide (q.1 ≠ 1) } :=
  remove_vertex_spec gW3 1 ⟨1, [(3, 2)]⟩ (by decide) (by decide) (by decide)

/-- C4: `add_vertex` returns the displaced old record (`none` when the key
was absent, the previous record when it was present), installs a fresh
empty-neighbor-list record under the key, always increments the vertex
counter by one, keeps the edge counter, and touches no other key. -/
theorem add_vertex_spec (g : Graph T) (key : T) :
    (g.add_vertex key).1 = g.get_vertex key ∧
    (g.add_vertex key).2.vertex_num = g.vertex_num + 1 ∧
    (g.add_vertex key).2.get_vertex key = some (Vertex.new key) ∧
    (g.add_vertex key).2.edge_num = g.edge_num ∧
    ∀ k, k ≠ key → (g.add_vertex key).2.get_vertex k = g.get_vertex k := by
  refine ⟨?_, rfl, ?_, rfl, ?_⟩
  · show (hmInsert g.vertics key (Vertex.new key)).1 = hmGet g.vertics key
    exact hmInsert_fst g.vertics key (Vertex.new key)
  · show hmGet (hmInsert g.vertics key (Vertex.new key)).2 key = some (Vertex.new key)
    exact hmGet_hmInsert_self g.vertics key (Vertex.new key)
  · intro k hk
    show hmGet (hmInsert g.vertics key (Vertex.new key)).2 k = hmGet g.vertics k
    exact hmGet_hmInsert_ne g.vertics key k (Vertex.new key) hk

def gW4 : Graph Nat :=
  applyOps Graph.new [.add_edge 0 1 5]

theorem add_vertex_spec_witness :
    (gW4.add_vertex 0).1 = gW4.get_vertex 0 ∧
    (gW4.add_vertex 0).2.vertex_num = gW4.vertex_num + 1 ∧
    (gW4.add_vertex 0).2.get_vertex 0 = some (Vertex.new 0) ∧
    (gW4.add_vertex 0).2.edge_num = gW4.edge_num ∧
    (gW4.add_vertex 0).2.get_vertex 1 = gW4.get_vertex 1 :=
  ⟨(add_vertex_spec gW4 0).1, (add_vertex_spec gW4 0).2.1, (add_vertex_spec gW4 0).2.2.1,
   (add_vertex_spec gW4 0).2.2.2.1, (add_vertex_spec gW4 0).2.2.2.2 1 (by decide)⟩

/-- C5: `add_edge` increments the edge counter by exactly one, leaves both
endpoints present, appends `(t, w)` at the end of the source's neighbor
list (never overwriting or deduplicating earlier entries, so self-loops and
duplicate edges each count), and installs a fresh empty record for an
absent target. -/
theorem add_edge_spec (g : Graph T) (f t : T) (w : Int) :
    (g.add_edge f t w).edge_num = g.edge_num + 1 ∧
    (g.add_edge f t w).contains f = true ∧
    (g.add_edge f t w).contains t = true ∧
    ((g.add_edge f t w).get_vertex f).map Vertex.neighbors
      = some (((g.get_vertex f).map Vertex.neighbors).getD [] ++ [(t, w)]) ∧
    (g.contains t = false → t ≠ f →
      (g.add_edge f t w).get_vertex t = some (Vertex.new t)) := by
  obtain ⟨hen, _, ⟨v, hv, hvn⟩, ⟨u, hu⟩, hfresh, _, _⟩ := add_edge_mid g f t
  have hmodf : hmGet (hmModify (addEdgeMid g f t).vertics f fun x => x.add_neighbor t w) f
      = some (v.add_neighbor t w) :=
    hmGet_hmModify_self (addEdgeMid g f t).vertics f _ v hv
  refine ⟨?_, ?_, ?_, ?_, ?_⟩
  · rw [add_edge_eq g f t w]
    show (addEdgeMid g f t).edgenums + 1 = g.edgenums + 1
    rw [hen]
  · rw [add_edge_eq g f t w, contains_eq_isSome]
    show (hmGet (hmModify (addEdgeMid g f t).vertics f fun x => x.add_neighbor t w)
      f).isSome = true
    rw [hmodf]
    rfl
  · rw [add_edge_eq g f t w, contains_eq_isSome]
    show (hmGet (hmModify (addEdgeMid g f t).vertics f fun x => x.add_neighbor t w)
      t).isSome = true
    by_cases htf : t = f
    · subst htf
      rw [hmodf]
      rfl
    · rw [hmGet_hmModify_ne (addEdgeMid g f t).vertics f t _ htf, hu]
      rfl
  · rw [add_edge_eq g f t w]
    show (hmGet (hmModify (addEdgeMid g f t).vertics f fun x => x.add_neighbor t w)
      f).map Vertex.neighbors
      = some (((g.get_vertex f).map Vertex.neighbors).getD [] ++ [(t, w)])
    rw [hmodf]
    simp [Vertex.add_neighbor, hvn]
  · intro hct htf
    rw [add_edge_eq g f t w]
    show hmGet (hmModify (addEdgeMid g f t).vertics f fun x => x.add_neighbor t w) t
      = some (Vertex.new t)
    rw [hmGet_hmModify_ne (addEdgeMid g f t).vertics f t _ htf]
    exact hfresh hct

theorem add_edge_spec_witness :
    ((Graph.new : Graph Nat).add_edge 0 1 5).edge_num
      = (Graph.new : Graph Nat).edge_num + 1 ∧
    ((Graph.new : Graph Nat).add_edge 0 1 5).contains 0 = true ∧
    ((Graph.new : Graph Nat).add_edge 0 1 5).contains 1 = true ∧
    (((Graph.new : Graph Nat).add_edge 0 1 5).get_vertex 0).map Vertex.neighbors
      = some ((((Graph.new : Graph Nat).get_vertex 0).map Vertex.neighbors).getD []
          ++ [(1, 5)]) ∧
    ((Graph.new : Graph Nat).add_edge 0 1 5).get_vertex 1 = some (Vertex.new 1) := by
  have h := add_edge_spec (Graph.new : Graph Nat) 0 1 5
  exact ⟨h.1, h.2.1, h.2.2.1, h.2.2.2.1, h.2.2.2.2 (by decide) (by decide)⟩

def cexOps6 : List (GraphOp Nat) :=
  [.add_vertex 0, .add_vertex 0]

/-- C6 (counterexample): adding the same key twice (no removals, so the
claimed precondition holds) leaves `vertex_num() = 2` while `vertex_keys()`
holds a single distinct key. -/
theorem vertex_num_invariant_cex :
    seqOK presentPre (Graph.new : Graph Nat) cexOps6 = true ∧
    (applyOps (Graph.new : Graph Nat) cexOps6).vertex_num
      ≠ (applyOps (Graph.new : Graph Nat) cexOps6).vertex_keys.dedup.length := by
  decide

/-- C6 (amended): for every operation sequence in which `add_vertex` is
applied only to absent keys and `remove_vertex` only to present keys, the
final `vertex_num()` equals the number of distinct keys in
`vertex_keys()`. -/
theorem vertex_num_eq_distinct_keys_of_fresh (ops : List (GraphOp T))
    (h : seqOK freshPre Graph.new ops = true) :
    (applyOps (Graph.new : Graph T) ops).vertex_num
      = (applyOps (Graph.new : Graph T) ops).vertex_keys.dedup.length := by
  have h2 := applyOps_inv freshPre
    (fun g => g.vertnums = g.vertics.length ∧ (g.vertics.map Prod.fst).Nodup)
    (fun g op hp hi => vertInv_step g op hp hi) ops Graph.new h ⟨rfl, List.nodup_nil⟩
  have hd : (applyOps (Graph.new : Graph T) ops).vertex_keys.dedup
      = (applyOps (Graph.new : Graph T) ops).vertex_keys :=
    List.dedup_eq_self.mpr h2.2
  rw [hd]
  show (applyOps (Graph.new : Graph T) ops).vertnums
    = ((applyOps (Graph.new : Graph T) ops).vertics.map Prod.fst).length
  rw [List.length_map]
  exact h2.1

def wOps6 : List (GraphOp Nat) :=
  [.add_vertex 0, .add_edge 0 1 3, .remove_vertex 1]

theorem vertex_num_eq_distinct_keys_of_fresh_witness :
    seqOK freshPre (Graph.new : Graph Nat) wOps6 = true ∧
    (applyOps (Graph.new : Graph Nat) wOps6).vertex_num
      = (applyOps (Graph.new : Graph Nat) wOps6).vertex_keys.dedup.length :=
  ⟨by decide, vertex_num_eq_distinct_keys_of_fresh wOps6 (by decide)⟩

def vC7 : Vertex Nat :=
  ⟨0, [(1, 0)]⟩

/-- C7 (counterexample): on a record whose only edge is a zero-weight edge
to key 1, `get_nbr_weight` returns 0 both for the existing edge (key 1) and
for the nonexistent edge (key 2) — the not-found result is not
distinguishable from a legitimate zero-weight edge. -/
theorem get_nbr_weight_cex :
    vC7.adjacent_key 1 = true ∧
    vC7.adjacent_key 2 = false ∧
    vC7.get_nbr_weight 1 = 0 ∧
    vC7.get_nbr_weight 2 = 0 ∧
    vC7.get_nbr_weight 2 = vC7.get_nbr_weight 1 := by
  decide

/-- C7 (amended): on a key with no matching neighbor entry,
`get_nbr_weight` returns the sentinel weight 0 — the very value an existing
zero-weight edge yields, so the two cases are not distinguishable. -/
theorem get_nbr_weight_absent (v : Vertex T) (key : T)
    (h : v.adjacent_key key = false) :
    v.get_nbr_weight key = 0 := by
  have h2 : (v.neighbors.any fun p => decide (p.1 = key)) = false := h
  have hf : v.neighbors.find? (fun p => decide (p.1 = key)) = none := by
    rw [List.find?_eq_none]
    intro p hp hd
    have h3 : (v.neighbors.any fun p => decide (p.1 = key)) = true :=
      List.any_eq_true.mpr ⟨p, hp, hd⟩
    rw [h2] at h3
    cases h3
  simp [Vertex.get_nbr_weight, hf]

theorem get_nbr_weight_absent_witness :
    vC7.adjacent_key 2 = false ∧ vC7.get_nbr_weight 2 = 0 :=
  ⟨by decide, get_nbr_weight_absent vC7 2 (by decide)⟩

/-- C8: after `add_vertex k` the graph contains `k`; removing a present key
`k` succeeds and afterwards the graph no longer contains `k` (the `Nodup`
hypothesis is the key-uniqueness guarantee of the Rust `HashMap`). -/
theorem add_remove_contains (g : Graph T) (k : T) :
    (g.add_vertex k).2.contains k = true ∧
    (g.vertex_keys.Nodup → g.contains k = true →
      ∃ v g', g.remove_vertex k = Except.ok (v, g') ∧ g'.contains k = false) := by
  refine ⟨contains_add_vertex_self g k, ?_⟩
  intro hnd hc
  obtain ⟨v, hv⟩ := (contains_true_iff g k).mp hc
  refine ⟨v, _, remove_vertex_eq g k v hv, ?_⟩
  show ((removeLoop k (hmRemove g.vertics k).2).1.any fun p => decide (p.1 = k)) = false
  exact not_any_key_removeLoop k g.vertics hnd

def gW8 : Graph Nat :=
  ((Graph.new : Graph Nat).add_vertex 3).2

theorem add_remove_contains_witness :
    (gW8.add_vertex 3).2.contains 3 = true ∧
    (∃ v g', gW8.remove_vertex 3 = Except.ok (v, g') ∧ g'.contains 3 = false) :=
  ⟨(add_remove_contains gW8 3).1, (add_remove_contains gW8 3).2 (by decide) (by decide)⟩

/-- C10: a self-loop `add_edge k k w` on an absent key creates exactly one
vertex — the counter grows by one, not two — and that vertex's record is
`⟨k, [(k, w)]⟩`; the edge counter grows by one. -/
theorem add_edge_selfloop_fresh (g : Graph T) (k : T) (w : Int)
    (h : g.contains k = false) :
    (g.add_edge k k w).vertex_num = g.vertex_num + 1 ∧
    (g.add_edge k k w).get_vertex k = some ⟨k, [(k, w)]⟩ ∧
    (g.add_edge k k w).edge_num = g.edge_num + 1 := by
  obtain ⟨hen, _, _, _, hfresh, hself, _⟩ := add_edge_mid g k k
  have hk2 : hmGet (addEdgeMid g k k).vertics k = some (Vertex.new k) := hfresh h
  refine ⟨?_, ?_, ?_⟩
  · rw [add_edge_eq g k k w]
    show (addEdgeMid g k k).vertnums = g.vertnums + 1
    exact hself h rfl
  · rw [add_edge_eq g k k w]
    show hmGet (hmModify (addEdgeMid g k k).vertics k fun x => x.add_neighbor k w) k
      = some ⟨k, [(k, w)]⟩
    rw [hmGet_hmModify_self (addEdgeMid g k k).vertics k _ (Vertex.new k) hk2]
    simp [Vertex.new, Vertex.add_neighbor]
  · rw [add_edge_eq g k k w]
    show (addEdgeMid g k k).edgenums + 1 = g.edgenums + 1
    rw [hen]

theorem add_edge_selfloop_fresh_witness :
    ((Graph.new : Graph Nat).contains 4 = false) ∧
    (((Graph.new : Graph Nat).add_edge 4 4 8).vertex_num
        = (Graph.new : Graph Nat).vertex_num + 1 ∧
      ((Graph.new : Graph Nat).add_edge 4 4 8).get_vertex 4 = some ⟨4, [(4, 8)]⟩ ∧
      ((Graph.new : Graph Nat).add_edge 4 4 8).edge_num
        = (Graph.new : Graph Nat).edge_num + 1) :=
  ⟨by decide, add_edge_selfloop_fresh Graph.new 4 8 (by decide)⟩

end AdjList

namespace MatrixGraph

/-- Matrix-variant vertex (`struct Vertex<'a>`): dense integer id and a
display name. -/
structure Vertex where
  id : Nat
  name : String
deriving DecidableEq

/-- Matrix cell (`struct Edge`): a bare boolean flag. -/
structure Edge where
  edge : Bool
deriving DecidableEq

/-- `Edge::new`: no edge. -/
def Edge.new : Edge :=
  ⟨false⟩

/-- `Edge::set_edge`: an edge. -/
def Edge.set_edge : Edge :=
  ⟨true⟩

/-- The matrix graph (`struct Graph`): fixed node count and the N×N cell
matrix (`Vec<Vec<Edge>>`, modelled as a list of rows). -/
structure Graph where
  nodes : Nat
  graph : List (List Edge)
deriving DecidableEq

/-- `Graph::new`: an `nodes × nodes` matrix of empty cells. -/
def Graph.new (nodes : Nat) : Graph :=
  ⟨nodes, List.replicate nodes (List.replicate nodes Edge.new)⟩

/-- `Graph::is_empty`: true iff the node count is zero. -/
def Graph.is_empty (g : Graph) : Bool :=
  decide (g.nodes = 0)

/-- `Graph::len`: the node count. -/
def Graph.len (g : Graph) : Nat :=
  g.nodes

/-- `Graph::add_edge`: set cell `[n1.id][n2.id]` to an edge when both ids
are below the node count; otherwise print the out-of-range message and
leave the graph untouched.  The boolean of the result records whether the
error branch (the `println!`) was taken. -/
def Graph.add_edge (g : Graph) (n1 n2 : Vertex) : Graph × Bool :=
  if n1.id < g.nodes ∧ n2.id < g.nodes then
    let row := (g.graph.getD n1.id []).set n2.id Edge.set_edge
    ({ g with graph := g.graph.set n1.id row }, false)
  else
    (g, true)

/-- Read one matrix cell as a boolean, `none` when out of bounds. -/
def Graph.cell (g : Graph) (i j : Nat) : Option Bool :=
  (g.graph.get? i).bind fun row => (row.get? j).map Edge.edge

/-- The shape every graph built by `Graph::new` (and preserved by
`add_edge`) has: an `nodes × nodes` matrix. -/
def wellFormed (g : Graph) : Prop :=
  g.graph.length = g.nodes ∧ ∀ row ∈ g.graph, row.length = g.nodes

instance (g : Graph) : Decidable (wellFormed g) := by
  unfold wellFormed
  infer_instance

lemma wellFormed_new (n : Nat) : wellFormed (Graph.new n) := by
  constructor
  · simp [Graph.new]
  · intro row hrow
    simp only [Graph.new] at hrow
    rw [List.eq_of_mem_replicate hrow]
    simp [Graph.new]

lemma get?_set_self {α : Type} (l : List α) (i : Nat) (a : α) (h : i < l.length) :
    (l.set i a).get? i = some a := by
  induction l generalizing i with
  | nil => simp at h
  | cons x xs ih =>
    cases i with
    | zero => rfl
    | succ n => simpa using ih n (by simpa using h)

lemma get?_set_ne {α : Type} (l : List α) (i j : Nat) (a : α) (h : i ≠ j) :
    (l.set i a).get? j = l.get? j := by
  induction l generalizing i j with
  | nil => simp
  | cons x xs ih =>
    cases i with
    | zero =>
      cases j with
      | zero => exact absurd rfl h
      | succ m => rfl
    | succ n =>
      cases j with
      | zero => rfl
      | succ m => simpa using ih n m fun hh => h (by rw [hh])

lemma get?_some_of_lt {α : Type} (l : List α) (i : Nat) (h : i < l.length) :
    ∃ x, l.get? i = some x := by
  induction l generalizing i with
  | nil => simp at h
  | cons x xs ih =>
    cases i with
    | zero => exact ⟨x, rfl⟩
    | succ n => simpa using ih n (by simpa using h)

lemma mem_of_get?_some {α : Type} (l : List α) (i : Nat) (x : α)
    (h : l.get? i = some x) : x ∈ l := by
  induction l generalizing i with
  | nil => cases h
  | cons y ys ih =>
    cases i with
    | zero =>
      injection h with h
      simp [h]
    | succ n =>
      simp only [List.get?_cons_succ] at h
      exact List.mem_cons_of_mem y (ih n h)

lemma getD_eq_get? {α : Type} (l : List α) (i : Nat) (d : α) :
    l.getD i d = (l.get? i).getD d := by
  induction l generalizing i with
  | nil => rfl
  | cons x xs ih =>
    cases i with
    | zero => rfl
    | succ n => simp [ih n]

end MatrixGraph

namespace MatrixGraph

lemma wellFormed_add_edge (g : Graph) (v1 v2 : Vertex) (hwf : wellFormed g) :
    wellFormed (g.add_edge v1 v2).1 := by
  by_cases hc : v1.id < g.nodes ∧ v2.id < g.nodes
  · obtain ⟨row0, hrow0⟩ := get?_some_of_lt g.graph v1.id (by rw [hwf.1]; exact hc.1)
    have hgetD : g.graph.getD v1.id [] = row0 := by
      rw [getD_eq_get?, hrow0]
      rfl
    have hrowlen : row0.length = g.nodes :=
      hwf.2 row0 (mem_of_get?_some g.graph v1.id row0 hrow0)
    simp only [Graph.add_edge, if_pos hc, hgetD]
    constructor
    · simp [hwf.1]
    · intro row hrow
      rcases List.mem_or_eq_of_mem_set hrow with hm | hm
      · exact hwf.2 row hm
      · rw [hm]
        simp [hrowlen]
  · simp only [Graph.add_edge, if_neg hc]
    exact hwf

/-- C9: on a well-formed matrix graph (the shape `Graph::new n` builds and
`add_edge` preserves), `add_edge v1 v2` with both ids below the node count
reports no error, keeps the node count, sets cell `[v1.id][v2.id]` to true
and changes no other cell; with either id at the node count or above it
reports the out-of-range condition and returns the graph unchanged. -/
theorem matrix_add_edge_spec (g : Graph) (v1 v2 : Vertex) (hwf : wellFormed g) :
    (v1.id < g.nodes → v2.id < g.nodes →
      (g.add_edge v1 v2).2 = false ∧
      (g.add_edge v1 v2).1.nodes = g.nodes ∧
      (g.add_edge v1 v2).1.cell v1.id v2.id = some true ∧
      ∀ i j, ¬(i = v1.id ∧ j = v2.id) →
        (g.add_edge v1 v2).1.cell i j = g.cell i j) ∧
    (¬(v1.id < g.nodes ∧ v2.id < g.nodes) → g.add_edge v1 v2 = (g, true)) := by
  constructor
  · intro h1 h2
    have hc : v1.id < g.nodes ∧ v2.id < g.nodes := ⟨h1, h2⟩
    obtain ⟨row0, hrow0⟩ := get?_some_of_lt g.graph v1.id (by rw [hwf.1]; exact h1)
    have hrowlen : row0.length = g.nodes :=
      hwf.2 row0 (mem_of_get?_some g.graph v1.id row0 hrow0)
    have hgetD : g.graph.getD v1.id [] = row0 := by
      rw [getD_eq_get?, hrow0]
      rfl
    have hadd : g.add_edge v1 v2
        = ({ g with graph := g.graph.set v1.id (row0.set v2.id Edge.set_edge) }, false) := by
      simp only [Graph.add_edge, if_pos hc, hgetD]
    rw [hadd]
    refine ⟨rfl, rfl, ?_, ?_⟩
    · show ((g.graph.set v1.id (row0.set v2.id Edge.set_edge)).get? v1.id).bind
        (fun row => (row.get? v2.id).map Edge.edge) = some true
      rw [get?_set_self g.graph v1.id _ (by rw [hwf.1]; exact h1)]
      show ((row0.set v2.id Edge.set_edge).get? v2.id).map Edge.edge = some true
      rw [get?_set_self row0 v2.id _ (by rw [hrowlen]; exact h2)]
      rfl
    · intro i j hij
      show ((g.graph.set v1.id (row0.set v2.id Edge.set_edge)).get? i).bind
        (fun row => (row.get? j).map Edge.edge) = g.cell i j
      by_cases hi : i = v1.id
      · subst hi
        have hj : j ≠ v2.id := fun hjj => hij ⟨rfl, hjj⟩
        rw [get?_set_self g.graph v1.id _ (by rw [hwf.1]; exact h1)]
        show ((row0.set v2.id Edge.set_edge).get? j).map Edge.edge = g.cell v1.id j
        rw [get?_set_ne row0 v2.id j _ (fun hh => hj hh.symm)]
        unfold Graph.cell
        rw [hrow0]
        rfl
      · rw [get?_set_ne g.graph v1.id i _ (fun hh => hi hh.symm)]
        rfl
  · intro hc
    simp only [Graph.add_edge, if_neg hc]

theorem matrix_add_edge_spec_witness :
    ((Graph.new 2).add_edge ⟨0, "a"⟩ ⟨1, "b"⟩).2 = false ∧
    ((Graph.new 2).add_edge ⟨0, "a"⟩ ⟨1, "b"⟩).1.nodes = (Graph.new 2).nodes ∧
    ((Graph.new 2).add_edge ⟨0, "a"⟩ ⟨1, "b"⟩).1.cell 0 1 = some true ∧
    ((Graph.new 2).add_edge ⟨0, "a"⟩ ⟨1, "b"⟩).1.cell 1 0 = (Graph.new 2).cell 1 0 ∧
    (Graph.new 2).add_edge ⟨2, "c"⟩ ⟨1, "b"⟩ = (Graph.new 2, true) := by
  have h1 := matrix_add_edge_spec (Graph.new 2) ⟨0, "a"⟩ ⟨1, "b"⟩ (by decide)
  have h2 := matrix_add_edge_spec (Graph.new 2) ⟨2, "c"⟩ ⟨1, "b"⟩ (by decide)
  exact ⟨(h1.1 (by decide) (by decide)).1, (h1.1 (by decide) (by decide)).2.1,
    (h1.1 (by decide) (by decide)).2.2.1,
    (h1.1 (by decide) (by decide)).2.2.2 1 0 (by decide), h2.2 (by decide)⟩

end MatrixGraph
